import Mathlib

/-!
Verification of the pyramid focus-stacking core (`python/fs_pyramid.py`,
driven by `python/stacker.py`).

Images are modelled as dimension-carrying total pixel functions with exact
rational samples (the code works in float32; exact rationals model the ideal
arithmetic, so identities proved here hold "within floating tolerance" for
the float implementation).  OpenCV primitives used by the code
(`cv2.pyrDown`, `cv2.pyrUp`, `cv2.filter2D`, `cv2.copyMakeBorder` with
`BORDER_REFLECT_101`) are modelled from their documented semantics; all
repository functions are translated directly from `fs_pyramid.py`.
-/

namespace FsPyramid

/-- Multichannel image: shape (h, w, c) with a total pixel function
(out-of-range indices are irrelevant; operations only read in-range ones). -/
@[ext]
structure Img where
  h : Nat
  w : Nat
  c : Nat
  pix : Nat → Nat → Nat → ℚ

/-- Default image used for out-of-range list access (never read by theorems). -/
def dImg : Img := ⟨0, 0, 0, fun _ _ _ => 0⟩

/-- Single-channel rational image (a 2-D float array in the code). -/
@[ext]
structure QImg where
  h : Nat
  w : Nat
  pix : Nat → Nat → ℚ

/-- Single-channel quantized (uint8) image, used for histogram statistics. -/
@[ext]
structure GrayImg where
  h : Nat
  w : Nat
  pix : Nat → Nat → Nat

/-- Models OpenCV `BORDER_REFLECT_101` index folding (`gfedcb|abcdefgh|gfedcba`):
mirror-reflect about the edge sample without repeating it.  A length-1 axis
maps everything to index 0, as OpenCV's `borderInterpolate` does.  Written in
closed form: reflect-101 is periodic with period `2*n - 2`. -/
def refl101 (n : Nat) (k : ℤ) : Nat :=
  if n ≤ 1 then 0
  else
    let m := k % (2 * (n : ℤ) - 2)
    if m < (n : ℤ) then m.toNat else (2 * (n : ℤ) - 2 - m).toNat

theorem refl101_lt {n : Nat} (hn : 1 ≤ n) (k : ℤ) : refl101 n k < n := by
  unfold refl101
  split
  · omega
  · rename_i hgt
    have hn2 : (2 : ℤ) * n - 2 > 0 := by
      have : 2 ≤ n := by omega
      omega
    have h0 : 0 ≤ k % (2 * (n : ℤ) - 2) := Int.emod_nonneg k (by omega)
    have h1 : k % (2 * (n : ℤ) - 2) < 2 * (n : ℤ) - 2 := Int.emod_lt_of_pos k hn2
    dsimp only
    split <;> omega

/-- Fixed 1-D smoothing weights of OpenCV `pyrDown`/`pyrUp`:
`[1, 4, 6, 4, 1] / 16`. -/
def pdK : Nat → ℚ
  | 0 => 1 / 16
  | 1 => 4 / 16
  | 2 => 6 / 16
  | 3 => 4 / 16
  | 4 => 1 / 16
  | _ => 0

/-- Models `cv2.pyrDown`: smooth with the fixed 5x5 kernel (reflect-101
border), then keep every second row/column; output size is the ceiling of
half the input size per dimension. -/
def pyrDown (im : Img) : Img :=
  ⟨(im.h + 1) / 2, (im.w + 1) / 2, im.c, fun r c k =>
    Finset.sum (Finset.range 5) fun di =>
      Finset.sum (Finset.range 5) fun dj =>
        pdK di * pdK dj *
          im.pix (refl101 im.h ((2 * r + di : ℕ) - (2 : ℤ)))
                 (refl101 im.w ((2 * c + dj : ℕ) - (2 : ℤ))) k⟩

/-- Models `cv2.pyrUp`: inject zeros between samples (even coordinates carry
the source), smooth with the same fixed kernel scaled by 4 (reflect-101
border); output size is double the input per dimension. -/
def pyrUp (im : Img) : Img :=
  ⟨2 * im.h, 2 * im.w, im.c, fun r c k =>
    let zpix : Nat → Nat → ℚ := fun i j =>
      if i % 2 = 0 ∧ j % 2 = 0 then im.pix (i / 2) (j / 2) k else 0
    4 * Finset.sum (Finset.range 5) fun di =>
      Finset.sum (Finset.range 5) fun dj =>
        pdK di * pdK dj *
          zpix (refl101 (2 * im.h) ((r + di : ℕ) - (2 : ℤ)))
               (refl101 (2 * im.w) ((c + dj : ℕ) - (2 : ℤ)))⟩

/-- Elementwise image addition (`expanded + layer`); dimensions of the left
operand (all uses add equal-shaped arrays). -/
def Img.add (a b : Img) : Img :=
  ⟨a.h, a.w, a.c, fun i j k => a.pix i j k + b.pix i j k⟩

/-- Elementwise image subtraction (`gauss_layer - expanded`); dimensions of
the left operand (all uses subtract equal-shaped arrays). -/
def Img.sub (a b : Img) : Img :=
  ⟨a.h, a.w, a.c, fun i j k => a.pix i j k - b.pix i j k⟩

/-- Models the `if expanded.shape != layer.shape: expanded = expanded[:h, :w]`
step of `laplacian_pyramid` and `collapse`: crop trailing rows/columns down
to the target spatial size (channel counts always already agree at the call
sites, so the shape guard is modelled on the spatial dimensions). -/
def cropTo (e : Img) (h w : Nat) : Img :=
  if e.h = h ∧ e.w = w then e else ⟨min e.h h, min e.w w, e.c, e.pix⟩

theorem cropTo_pix (e : Img) (h w : Nat) : (cropTo e h w).pix = e.pix := by
  unfold cropTo; split <;> rfl

theorem cropTo_c (e : Img) (h w : Nat) : (cropTo e h w).c = e.c := by
  unfold cropTo; split <;> rfl

theorem cropTo_h {e : Img} {h : Nat} (w : Nat) (hh : h ≤ e.h) :
    (cropTo e h w).h = h := by
  unfold cropTo; split
  · omega
  · simp only []
    omega

theorem cropTo_w {e : Img} (h : Nat) {w : Nat} (hw : w ≤ e.w) :
    (cropTo e h w).w = w := by
  unfold cropTo; split
  · omega
  · simp only []
    omega

/-- Gaussian pyramid level `k` for a stack: level 0 is the input stack (the
float cast is the identity on exact rationals), level `k+1` applies
`cv2.pyrDown` to every layer of level `k` — exactly the loop invariant of
`gaussian_pyramid` in `fs_pyramid.py`. -/
def gaussLevels (stack : List Img) : Nat → List Img
  | 0 => stack
  | k + 1 => (gaussLevels stack k).map pyrDown

/-- Models `gaussian_pyramid(images, levels)`: the list of levels 0..levels,
finest first. -/
def gaussian_pyramid (stack : List Img) (levels : Nat) : List (List Img) :=
  (List.range (levels + 1)).map (gaussLevels stack)

/-- One level of the Laplacian pyramid, finest-first indexing: the coarsest
level (`k = levels`) is the Gaussian base band unchanged; a finer level `k`
is `gaussian[k] - crop(pyrUp(gaussian[k+1]))`, per layer. -/
def lapLevel (stack : List Img) (levels k : Nat) : List Img :=
  if k = levels then gaussLevels stack levels
  else
    List.zipWith (fun g g1 => Img.sub g (cropTo (pyrUp g1) g.h g.w))
      (gaussLevels stack k) (gaussLevels stack (k + 1))

/-- Models `laplacian_pyramid(images, levels)`: levels 0..levels, finest
first (the code builds coarsest-first and reverses). -/
def laplacian_pyramid (stack : List Img) (levels : Nat) : List (List Img) :=
  (List.range (levels + 1)).map (lapLevel stack levels)

/-- Models `collapse(pyramid)`: start from the coarsest (last) level and
repeatedly upsample, crop to the next finer level's shape, and add that
level.  `foldr` over the initial segment processes levels in the order
`pyramid[-2::-1]` of the code. -/
def collapse (pyr : List Img) : Img :=
  match pyr.getLast? with
  | none => dImg
  | some base =>
      pyr.dropLast.foldr
        (fun layer img => Img.add (cropTo (pyrUp img) layer.h layer.w) layer)
        base

theorem collapse_singleton (x : Img) : collapse [x] = x := rfl

theorem collapse_cons (x : Img) (l : List Img) (hl : l ≠ []) :
    collapse (x :: l) =
      Img.add (cropTo (pyrUp (collapse l)) x.h x.w) x := by
  obtain ⟨y, ys, rfl⟩ := List.exists_cons_of_ne_nil hl
  unfold collapse
  simp [List.getLast?_cons_cons, List.dropLast_cons₂]
  cases h : (y :: ys).getLast? with
  | none => simp [List.getLast?] at h
  | some b => rfl

theorem gaussLevels_length (stack : List Img) (k : Nat) :
    (gaussLevels stack k).length = stack.length := by
  induction k with
  | zero => rfl
  | succ k ih => simp [gaussLevels, ih]

theorem getD_map_img {l : List Img} {i : Nat} (hi : i < l.length) (f : Img → Img) :
    (l.map f).getD i dImg = f (l.getD i dImg) := by
  rw [List.getD_eq_getElem?_getD, List.getD_eq_getElem?_getD, List.getElem?_map,
    List.getElem?_eq_getElem hi]
  rfl

theorem getD_zipWith_img {as bs : List Img} {i : Nat} (ha : i < as.length)
    (hb : i < bs.length) (f : Img → Img → Img) :
    (List.zipWith f as bs).getD i dImg = f (as.getD i dImg) (bs.getD i dImg) := by
  rw [List.getD_eq_getElem?_getD, List.getD_eq_getElem?_getD,
    List.getD_eq_getElem?_getD, List.getElem?_zipWith,
    List.getElem?_eq_getElem ha, List.getElem?_eq_getElem hb]
  rfl

theorem gaussLevels_getD_succ (stack : List Img) (k : Nat) {i : Nat}
    (hi : i < stack.length) :
    (gaussLevels stack (k + 1)).getD i dImg =
      pyrDown ((gaussLevels stack k).getD i dImg) := by
  have h : i < (gaussLevels stack k).length := by rw [gaussLevels_length]; exact hi
  exact getD_map_img h pyrDown

/-- Core reconstruction identity: collapsing the per-layer Laplacian chain of
any Gaussian chain `G` (where each level is the `pyrDown` of the previous)
returns `G l`, the finest level of the processed segment. -/
theorem collapse_lap_aux (G : Nat → Img) (hG : ∀ k, G (k + 1) = pyrDown (G k))
    (lv : Nat) :
    ∀ n l, l + n = lv →
      collapse ((List.range' l (n + 1)).map
        (fun k => if k = lv then G lv
          else Img.sub (G k) (cropTo (pyrUp (G (k + 1))) (G k).h (G k).w))) =
      G l := by
  intro n
  induction n with
  | zero =>
    intro l hl
    have : l = lv := by omega
    subst this
    simp [collapse_singleton]
  | succ n ih =>
    intro l hl
    have hlv : l ≠ lv := by omega
    rw [List.range'_succ, List.map_cons]
    have hrest :
        (List.range' (l + 1) (n + 1)).map
          (fun k => if k = lv then G lv
            else Img.sub (G k) (cropTo (pyrUp (G (k + 1))) (G k).h (G k).w)) ≠ [] := by
      rw [List.range'_succ, List.map_cons]
      exact List.cons_ne_nil _ _
    rw [collapse_cons _ _ hrest, ih (l + 1) (by omega), if_neg hlv]
    have hup_h : (G l).h ≤ (pyrUp (G (l + 1))).h := by
      show (G l).h ≤ 2 * (G (l + 1)).h
      rw [hG l]
      show (G l).h ≤ 2 * (((G l).h + 1) / 2)
      omega
    have hup_w : (G l).w ≤ (pyrUp (G (l + 1))).w := by
      show (G l).w ≤ 2 * (G (l + 1)).w
      rw [hG l]
      show (G l).w ≤ 2 * (((G l).w + 1) / 2)
      omega
    refine Img.ext ?_ ?_ ?_ ?_
    · show (cropTo (pyrUp (G (l + 1))) (G l).h (G l).w).h = (G l).h
      exact cropTo_h _ hup_h
    · show (cropTo (pyrUp (G (l + 1))) (G l).h (G l).w).w = (G l).w
      exact cropTo_w _ hup_w
    · show (cropTo (pyrUp (G (l + 1))) (G l).h (G l).w).c = (G l).c
      rw [cropTo_c]
      show (G (l + 1)).c = (G l).c
      rw [hG l]
      rfl
    · funext i j k
      show (cropTo (pyrUp (G (l + 1))) (G l).h (G l).w).pix i j k +
          ((G l).pix i j k -
            (cropTo (pyrUp (G (l + 1))) (G l).h (G l).w).pix i j k) =
          (G l).pix i j k
      ring

/-- C1: for every image stack and every depth, collapsing the Laplacian
pyramid built from that stack reproduces the original stack layer by layer —
exactly, in the exact-rational model, hence within any floating tolerance in
the float32 implementation.  `collapse` is applied to each layer's pyramid
(the per-layer reading of `collapse(laplacian_pyramid(stack, depth))`). -/
theorem laplacian_roundtrip (stack : List Img) (lv : Nat) (i : Nat)
    (hi : i < stack.length) :
    collapse ((laplacian_pyramid stack lv).map (fun level => level.getD i dImg)) =
      stack.getD i dImg := by
  have hlen : ∀ k, i < (gaussLevels stack k).length := fun k => by
    rw [gaussLevels_length]; exact hi
  have hG : ∀ k, (gaussLevels stack (k + 1)).getD i dImg =
      pyrDown ((gaussLevels stack k).getD i dImg) := fun k =>
    gaussLevels_getD_succ stack k hi
  have hmap : (laplacian_pyramid stack lv).map (fun level => level.getD i dImg) =
      (List.range' 0 (lv + 1)).map
        (fun k => if k = lv then (gaussLevels stack lv).getD i dImg
          else Img.sub ((gaussLevels stack k).getD i dImg)
            (cropTo (pyrUp ((gaussLevels stack (k + 1)).getD i dImg))
              ((gaussLevels stack k).getD i dImg).h
              ((gaussLevels stack k).getD i dImg).w)) := by
    rw [laplacian_pyramid, List.map_map, ← List.range_eq_range']
    refine List.map_congr_left ?_
    intro k _
    simp only [Function.comp_apply]
    unfold lapLevel
    split
    · rfl
    · rw [getD_zipWith_img (hlen k) (hlen (k + 1))]
  rw [hmap,
    collapse_lap_aux (fun k => (gaussLevels stack k).getD i dImg) hG lv lv 0
      (by omega)]
  rfl

/-- Witness for C1 at a concrete 2x2 single-channel stack of depth 1. -/
theorem laplacian_roundtrip_witness :
    collapse ((laplacian_pyramid [(⟨2, 2, 1, fun _ _ _ => 1⟩ : Img)] 1).map
      (fun level => level.getD 0 dImg)) =
      [(⟨2, 2, 1, fun _ _ _ => 1⟩ : Img)].getD 0 dImg :=
  laplacian_roundtrip [(⟨2, 2, 1, fun _ _ _ => 1⟩ : Img)] 1 0 (by decide)

/-- Number of pixels of `g` holding gray level `v` (the histogram count that
`np.unique(gray_image, return_counts=True)` produces for `v`). -/
def countLevel (g : GrayImg) (v : Nat) : Nat :=
  Finset.sum (Finset.range g.h) fun r =>
    Finset.sum (Finset.range g.w) fun c => if g.pix r c = v then 1 else 0

/-- Models `get_probabilities`: histogram of quantized levels normalized by
the total pixel count (`counts.sum()` equals `h * w`); levels absent from the
image get probability 0.  The 256-slot array is modelled as a total function
on levels (the code would fault on levels outside 0..255; every call site
feeds uint8 data). -/
def get_probabilities (g : GrayImg) : Nat → ℚ := fun v =>
  (countLevel g v : ℚ) / ((g.h * g.w : Nat) : ℚ)

/-- Models `cv2.copyMakeBorder(image, p, p, p, p, cv2.BORDER_REFLECT101)`:
pad by `p` on every side, filling with mirror-reflected samples. -/
def copyMakeBorder101 (g : GrayImg) (p : Nat) : GrayImg :=
  ⟨g.h + 2 * p, g.w + 2 * p, fun i j =>
    g.pix (refl101 g.h ((i : ℤ) - (p : ℤ))) (refl101 g.w ((j : ℤ) - (p : ℤ)))⟩

/-- Models `entropy_deviation(image, kernel_size)`: pad by
`p = (kernel_size - 1) / 2` with reflect-101, then for every pixel gather the
`(2p+1) x (2p+1)` window (`offset = arange(-p, p+1)`; padded row index
`row + p + offset` is `row + di` for `di` in `0..2p`) and compute
`_area_entropy` (negative sum of `level * log(probabilities[level])`, with
the whole-image distribution) and `_area_deviation` (population variance:
mean squared deviation from the window mean).  The logarithm is an abstract
parameter `logf`, standing for `np.log` on exact rationals. -/
def entropy_deviation (g : GrayImg) (ks : Nat) (logf : ℚ → ℚ) :
    (Nat → Nat → ℚ) × (Nat → Nat → ℚ) :=
  let p := (ks - 1) / 2
  let padded := copyMakeBorder101 g p
  (fun r c =>
    -(Finset.sum (Finset.range (2 * p + 1)) fun di =>
       Finset.sum (Finset.range (2 * p + 1)) fun dj =>
        ((padded.pix (r + di) (c + dj) : ℚ)) *
          logf (get_probabilities g (padded.pix (r + di) (c + dj)))),
   fun r c =>
    let n : ℚ := (((2 * p + 1) * (2 * p + 1) : Nat) : ℚ)
    let avg : ℚ :=
      (Finset.sum (Finset.range (2 * p + 1)) fun di =>
        Finset.sum (Finset.range (2 * p + 1)) fun dj =>
          ((padded.pix (r + di) (c + dj) : ℚ))) / n
    (Finset.sum (Finset.range (2 * p + 1)) fun di =>
      Finset.sum (Finset.range (2 * p + 1)) fun dj =>
        ((padded.pix (r + di) (c + dj) : ℚ) - avg) ^ 2) / n)

/-- Written from the spec's words for comparison: "for every pixel, take a
windowSize x windowSize neighborhood (boundary: mirror-reflect padding, no
edge replication), and compute entropy as the negative sum, over all samples
in the window, of (sample value x log(probability[sample value]))", with the
window expressed by signed offsets `-p..p` (`windowSize = 2p + 1`) around the
pixel and the whole-image normalized histogram as the probability. -/
def specLocalEntropy (logf : ℚ → ℚ) (g : GrayImg) (p : Nat) (r c : Nat) : ℚ :=
  -(Finset.sum (Finset.Icc (-(p : ℤ)) (p : ℤ)) fun dr =>
     Finset.sum (Finset.Icc (-(p : ℤ)) (p : ℤ)) fun dc =>
      let v := g.pix (refl101 g.h ((r : ℤ) + dr)) (refl101 g.w ((c : ℤ) + dc))
      (v : ℚ) * logf (get_probabilities g v))

theorem Icc_eq_map_range (p : Nat) :
    Finset.Icc (-(p : ℤ)) (p : ℤ) =
      Finset.map ⟨fun d : ℕ => (d : ℤ) - (p : ℤ), fun a b hab => by
        have h : (a : ℤ) - (p : ℤ) = (b : ℤ) - (p : ℤ) := hab
        omega⟩
        (Finset.range (2 * p + 1)) := by
  ext a
  simp only [Finset.mem_map, Finset.mem_range, Finset.mem_Icc,
    Function.Embedding.coeFn_mk]
  constructor
  · intro h
    exact ⟨(a + p).toNat, by omega, by omega⟩
  · rintro ⟨d, hd, rfl⟩
    omega

/-- C4: the computed local entropy at each pixel equals the spec formula —
negative sum over the windowSize x windowSize mirror-reflected neighborhood
of (sample value x log(whole-image probability of that value)) — for the odd
window sizes the code's symmetric padding realizes (the program always uses
windowSize 5). -/
theorem localEntropy_spec (logf : ℚ → ℚ) (g : GrayImg) (ks p r c : Nat)
    (hks : ks = 2 * p + 1) :
    (entropy_deviation g ks logf).1 r c = specLocalEntropy logf g p r c := by
  subst hks
  have hp : (2 * p + 1 - 1) / 2 = p := by omega
  simp only [entropy_deviation, specLocalEntropy, hp, Icc_eq_map_range,
    Finset.sum_map, Function.Embedding.coeFn_mk, copyMakeBorder101]
  congr 1
  refine Finset.sum_congr rfl fun di _ => ?_
  refine Finset.sum_congr rfl fun dj _ => ?_
  have h1 : (r : ℤ) + ((di : ℤ) - (p : ℤ)) = ((r + di : ℕ) : ℤ) - (p : ℤ) := by
    push_cast; ring
  have h2 : (c : ℤ) + ((dj : ℤ) - (p : ℤ)) = ((c + dj : ℕ) : ℤ) - (p : ℤ) := by
    push_cast; ring
  rw [h1, h2]

/-- Witness for C4 at windowSize 5 on a concrete 1x1 image. -/
theorem localEntropy_spec_witness :
    (entropy_deviation ⟨1, 1, fun _ _ => 3⟩ 5 (fun _ => 0)).1 0 0 =
      specLocalEntropy (fun _ => 0) ⟨1, 1, fun _ _ => 3⟩ 2 0 0 :=
  localEntropy_spec (fun _ => 0) ⟨1, 1, fun _ _ => 3⟩ 5 2 0 0 (by decide)

/-- C9: every sample read out of the mirror-reflect padded image is a sample
that occurs in the image itself, so its histogram-derived probability is
strictly positive — `np.log` is never applied to a zero probability in
`_area_entropy`. -/
theorem padded_probability_pos (g : GrayImg) (p : Nat) (hh : 1 ≤ g.h)
    (hw : 1 ≤ g.w) (i j : Nat) :
    (∃ r, r < g.h ∧ ∃ c, c < g.w ∧
        g.pix r c = (copyMakeBorder101 g p).pix i j) ∧
      0 < get_probabilities g ((copyMakeBorder101 g p).pix i j) := by
  have hr : refl101 g.h ((i : ℤ) - (p : ℤ)) < g.h := refl101_lt hh _
  have hc : refl101 g.w ((j : ℤ) - (p : ℤ)) < g.w := refl101_lt hw _
  constructor
  · exact ⟨_, hr, _, hc, rfl⟩
  · have hcount : 1 ≤ countLevel g ((copyMakeBorder101 g p).pix i j) := by
      unfold countLevel
      have hinner :
          (1 : ℕ) ≤ Finset.sum (Finset.range g.w) fun c =>
            if g.pix (refl101 g.h ((i : ℤ) - (p : ℤ))) c =
                (copyMakeBorder101 g p).pix i j then 1 else 0 := by
        have hmem : refl101 g.w ((j : ℤ) - (p : ℤ)) ∈ Finset.range g.w :=
          Finset.mem_range.mpr hc
        have hle := Finset.single_le_sum
          (f := fun c =>
            if g.pix (refl101 g.h ((i : ℤ) - (p : ℤ))) c =
                (copyMakeBorder101 g p).pix i j then 1 else 0)
          (fun _ _ => Nat.zero_le _) hmem
        simp only [] at hle
        have hcond : g.pix (refl101 g.h ((i : ℤ) - (p : ℤ)))
            (refl101 g.w ((j : ℤ) - (p : ℤ))) =
            (copyMakeBorder101 g p).pix i j := rfl
        rwa [if_pos hcond] at hle
      have houter := Finset.single_le_sum
        (f := fun r =>
          Finset.sum (Finset.range g.w) fun c =>
            if g.pix r c = (copyMakeBorder101 g p).pix i j then 1 else 0)
        (fun _ _ => Nat.zero_le _) (Finset.mem_range.mpr hr)
      exact le_trans hinner houter
    unfold get_probabilities
    apply div_pos
    · exact_mod_cast hcount
    · have : 0 < g.h * g.w := Nat.mul_pos hh hw
      exact_mod_cast this

/-- Witness for C9 on a concrete 1x1 image with padding 2. -/
theorem padded_probability_pos_witness :
    (∃ r, r < (1 : Nat) ∧ ∃ c, c < (1 : Nat) ∧
        (⟨1, 1, fun _ _ => 3⟩ : GrayImg).pix r c =
          (copyMakeBorder101 ⟨1, 1, fun _ _ => 3⟩ 2).pix 0 4) ∧
      0 < get_probabilities ⟨1, 1, fun _ _ => 3⟩
        ((copyMakeBorder101 ⟨1, 1, fun _ _ => 3⟩ 2).pix 0 4) :=
  padded_probability_pos ⟨1, 1, fun _ _ => 3⟩ 2 (by decide) (by decide) 0 4

/-- Maximum of a list of rationals (0 for the empty list, never used there). -/
def listMax : List ℚ → ℚ
  | [] => 0
  | [x] => x
  | x :: y :: t => max x (listMax (y :: t))

/-- Models `np.argmax` along the layer axis at one pixel: the index of the
first occurrence of the maximum (numpy documents first-occurrence
tie-breaking). -/
def argmaxIdx : List ℚ → Nat
  | [] => 0
  | [_] => 0
  | x :: y :: t => if listMax (y :: t) ≤ x then 0 else argmaxIdx (y :: t) + 1

/-- Characterization of first-argmax semantics: an in-range index attaining
the maximum, with every earlier entry strictly below it. -/
def isFirstArgmax (l : List ℚ) (i : Nat) : Prop :=
  i < l.length ∧ (∀ j, j < l.length → l.getD j 0 ≤ l.getD i 0) ∧
    ∀ j, j < i → l.getD j 0 < l.getD i 0

theorem argmaxIdx_lt : ∀ (l : List ℚ), l ≠ [] → argmaxIdx l < l.length
  | [], h => absurd rfl h
  | [_], _ => Nat.zero_lt_one
  | x :: y :: t, _ => by
    unfold argmaxIdx
    split
    · simp
    · have := argmaxIdx_lt (y :: t) (List.cons_ne_nil _ _)
      simpa using Nat.succ_lt_succ this

theorem listMax_cons_cons (x y : ℚ) (t : List ℚ) :
    listMax (x :: y :: t) = max x (listMax (y :: t)) := rfl

theorem argmaxIdx_cons_cons (x y : ℚ) (t : List ℚ) :
    argmaxIdx (x :: y :: t) =
      if listMax (y :: t) ≤ x then 0 else argmaxIdx (y :: t) + 1 := rfl

theorem le_listMax : ∀ (l : List ℚ) (j : Nat), j < l.length → l.getD j 0 ≤ listMax l
  | [], j, h => by simp at h
  | [x], j, h => by
    have hj : j = 0 := by simpa using h
    subst hj
    exact le_refl x
  | x :: y :: t, j, h => by
    rw [listMax_cons_cons]
    cases j with
    | zero => exact le_max_left _ _
    | succ j =>
      have hj : j < (y :: t).length := by simpa using h
      rw [List.getD_cons_succ]
      exact le_trans (le_listMax (y :: t) j hj) (le_max_right _ _)

theorem getD_argmaxIdx : ∀ (l : List ℚ), l ≠ [] → l.getD (argmaxIdx l) 0 = listMax l
  | [], h => absurd rfl h
  | [x], _ => rfl
  | x :: y :: t, _ => by
    rw [listMax_cons_cons, argmaxIdx_cons_cons]
    by_cases hle : listMax (y :: t) ≤ x
    · rw [if_pos hle, max_eq_left hle]
      rfl
    · rw [if_neg hle, max_eq_right (le_of_lt (lt_of_not_le hle)),
        List.getD_cons_succ]
      exact getD_argmaxIdx (y :: t) (List.cons_ne_nil _ _)

theorem argmaxIdx_first : ∀ (l : List ℚ) (j : Nat), j < argmaxIdx l →
    l.getD j 0 < listMax l
  | [], j, h => by simp [argmaxIdx] at h
  | [x], j, h => by simp [argmaxIdx] at h
  | x :: y :: t, j, h => by
    rw [argmaxIdx_cons_cons] at h
    rw [listMax_cons_cons]
    by_cases hle : listMax (y :: t) ≤ x
    · rw [if_pos hle] at h
      omega
    · rw [if_neg hle] at h
      have hx : x < listMax (y :: t) := lt_of_not_le hle
      rw [max_eq_right (le_of_lt hx)]
      cases j with
      | zero => exact hx
      | succ j =>
        have hj : j < argmaxIdx (y :: t) := by omega
        rw [List.getD_cons_succ]
        exact argmaxIdx_first (y :: t) j hj

theorem argmaxIdx_isFirstArgmax (l : List ℚ) (hl : l ≠ []) :
    isFirstArgmax l (argmaxIdx l) := by
  refine ⟨argmaxIdx_lt l hl, ?_, ?_⟩
  · intro j hj
    rw [getD_argmaxIdx l hl]
    exact le_listMax l j hj
  · intro j hj
    rw [getD_argmaxIdx l hl]
    exact argmaxIdx_first l j hj

/-- Truncation of a rational toward zero, as C float-to-int conversion does. -/
def ratTrunc (q : ℚ) : ℤ := if 0 ≤ q then ⌊q⌋ else ⌈q⌉

/-- Models `.astype(np.uint8)` on float32 data: truncate toward zero, wrap
modulo 256 (the fusion pipeline only feeds it in-range smoothed bytes; the
wrap models the usual two's-complement narrowing). -/
def toByte (q : ℚ) : Nat := ((ratTrunc q) % 256).toNat

/-- Models `images[layer][:, :, channel].astype(np.uint8)`: one channel of a
float image quantized to a gray image. -/
def toGray (im : Img) (ch : Nat) : GrayImg :=
  ⟨im.h, im.w, fun r c => toByte (im.pix r c ch)⟩

/-- Per-layer local entropies at one pixel of one channel, layer order
preserved (`entropies[layer]` of `get_fused_base_channel` read at `(r, c)`). -/
def baseEntropyList (logf : ℚ → ℚ) (images : List Img) (ks ch r c : Nat) :
    List ℚ :=
  images.map fun im => (entropy_deviation (toGray im ch) ks logf).1 r c

/-- Per-layer local deviations at one pixel of one channel
(`deviations[layer]` of `get_fused_base_channel` read at `(r, c)`). -/
def baseDeviationList (logf : ℚ → ℚ) (images : List Img) (ks ch r c : Nat) :
    List ℚ :=
  images.map fun im => (entropy_deviation (toGray im ch) ks logf).2 r c

/-- Models `get_fused_base_channel(images, kernel_size, channel)` at one
pixel: per-layer entropy/deviation maps on the uint8-cast channel,
`np.argmax` over the layer axis for each criterion, then the masked
accumulation `fused += np.where(best == layer, images[layer][:,:,channel], 0)`
for both criteria, halved.  The trailing `.astype(images.dtype)` is the
identity here: the orchestrator passes float32 pyramid data and samples are
exact rationals.  (The `probabilities` local of the source is unused there
and omitted.) -/
def get_fused_base_channel (logf : ℚ → ℚ) (images : List Img) (ks ch r c : Nat) :
    ℚ :=
  let bestE := argmaxIdx (baseEntropyList logf images ks ch r c)
  let bestD := argmaxIdx (baseDeviationList logf images ks ch r c)
  (Finset.sum (Finset.range images.length) fun layer =>
    (if bestE = layer then (images.getD layer dImg).pix r c ch else 0) +
    (if bestD = layer then (images.getD layer dImg).pix r c ch else 0)) / 2

/-- Models `get_fused_base(images, kernel_size)`: one fused image with each
layer's shape (`np.zeros(images.shape[1:])`), filled channel by channel. -/
def get_fused_base (logf : ℚ → ℚ) (images : List Img) (ks : Nat) : Img :=
  match images with
  | [] => dImg
  | i0 :: _ =>
    ⟨i0.h, i0.w, i0.c, fun r c k => get_fused_base_channel logf images ks k r c⟩

/-- Models the 1-D generating vector `[0.25 - a/2, 0.25, a, 0.25, 0.25 - a/2]`
of `generating_kernel(a)`. -/
def genK1 (a : ℚ) : Nat → ℚ
  | 0 => 1 / 4 - a / 2
  | 1 => 1 / 4
  | 2 => a
  | 3 => 1 / 4
  | 4 => 1 / 4 - a / 2
  | _ => 0

/-- Models `generating_kernel(a)`: the outer product of the 1-D generating
vector with itself. -/
def generating_kernel (a : ℚ) : Nat → Nat → ℚ := fun i j => genK1 a i * genK1 a j

/-- Models `cv2.filter2D(image, -1, kernel, None, borderType=BORDER_REFLECT_101)`
for a 5x5 kernel anchored at its center, on a single-channel float image
(`convolve` of the source; filter2D correlates, which coincides with
convolution for the symmetric kernels used). -/
def convolveQ (kernel : Nat → Nat → ℚ) (im : QImg) : QImg :=
  ⟨im.h, im.w, fun r c =>
    Finset.sum (Finset.range 5) fun di =>
      Finset.sum (Finset.range 5) fun dj =>
        kernel di dj *
          im.pix (refl101 im.h ((r + di : ℕ) - (2 : ℤ)))
                 (refl101 im.w ((c + dj : ℕ) - (2 : ℤ)))⟩

/-- Models `region_energy(laplacian)`: convolve the elementwise square with
the default generating kernel, `generating_kernel(0.4)`. -/
def region_energy (lap : QImg) : QImg :=
  convolveQ (generating_kernel (2 / 5)) ⟨lap.h, lap.w, fun r c => (lap.pix r c) ^ 2⟩

/-- One channel of a float image as a single-channel float image
(`laplacians[layer][:, :, channel]`). -/
def chanSlice (im : Img) (ch : Nat) : QImg :=
  ⟨im.h, im.w, fun r c => im.pix r c ch⟩

/-- Per-layer region energies at one pixel of one channel
(`region_energies[layer]` of `get_fused_laplacian_channel` at `(r, c)`). -/
def lapEnergyList (laps : List Img) (ch r c : Nat) : List ℚ :=
  laps.map fun lap => (region_energy (chanSlice lap ch)).pix r c

/-- Models `get_fused_laplacian_channel(laplacians, channel)` at one pixel:
region-energy maps per layer, `np.argmax` over the layer axis, then the
masked accumulation `fused += np.where(best_re == layer, ..., 0)`. -/
def get_fused_laplacian_channel (laps : List Img) (ch r c : Nat) : ℚ :=
  let best := argmaxIdx (lapEnergyList laps ch r c)
  Finset.sum (Finset.range laps.length) fun layer =>
    if best = layer then (laps.getD layer dImg).pix r c ch else 0

/-- Models `get_fused_laplacian(laplacians)`: one fused image with each
layer's shape, filled channel by channel. -/
def get_fused_laplacian (laps : List Img) : Img :=
  match laps with
  | [] => dImg
  | l0 :: _ =>
    ⟨l0.h, l0.w, l0.c, fun r c k => get_fused_laplacian_channel laps k r c⟩

theorem sum_ite_pick (N b : Nat) (hb : b < N) (f : Nat → ℚ) :
    (Finset.sum (Finset.range N) fun layer => if b = layer then f layer else 0) =
      f b := by
  rw [Finset.sum_ite_eq]
  exact if_pos (Finset.mem_range.mpr hb)

/-- Models the masked-accumulation pattern shared by both fusion routines:
`np.where(best == layer, values[layer], 0)` summed over every layer index. -/
def maskedSelect (vals : List ℚ) (best : Nat) : ℚ :=
  Finset.sum (Finset.range vals.length) fun layer =>
    if best = layer then vals.getD layer 0 else 0

/-- C10: summing the per-layer masks reproduces exactly the value of the
single layer the index map selects — the optimized masked-sum form is the
naive per-pixel selection. -/
theorem maskedSelect_eq_select (vals : List ℚ) (best : Nat)
    (hb : best < vals.length) : maskedSelect vals best = vals.getD best 0 :=
  sum_ite_pick vals.length best hb _

/-- Witness for C10 on a concrete two-layer value list. -/
theorem maskedSelect_eq_select_witness : maskedSelect [3, 7] 1 = 7 := by
  have h := maskedSelect_eq_select [3, 7] 1 (by decide)
  simpa using h

/-- C2: base-band fusion averages the two per-criterion selections — at every
pixel of every channel the fused value is (value from the layer of maximal
local entropy + value from the layer of maximal local deviation) / 2, both
argmaxes taken with first-occurrence (lowest-layer-index) tie-breaking. -/
theorem fused_base_channel_eq (logf : ℚ → ℚ) (images : List Img)
    (ks ch r c : Nat) (hne : images ≠ []) :
    isFirstArgmax (baseEntropyList logf images ks ch r c)
        (argmaxIdx (baseEntropyList logf images ks ch r c)) ∧
      isFirstArgmax (baseDeviationList logf images ks ch r c)
        (argmaxIdx (baseDeviationList logf images ks ch r c)) ∧
      get_fused_base_channel logf images ks ch r c =
        ((images.getD (argmaxIdx (baseEntropyList logf images ks ch r c))
            dImg).pix r c ch +
         (images.getD (argmaxIdx (baseDeviationList logf images ks ch r c))
            dImg).pix r c ch) / 2 := by
  have hEne : baseEntropyList logf images ks ch r c ≠ [] := by
    simpa [baseEntropyList] using hne
  have hDne : baseDeviationList logf images ks ch r c ≠ [] := by
    simpa [baseDeviationList] using hne
  have hElen : (baseEntropyList logf images ks ch r c).length = images.length := by
    simp [baseEntropyList]
  have hDlen : (baseDeviationList logf images ks ch r c).length = images.length := by
    simp [baseDeviationList]
  refine ⟨argmaxIdx_isFirstArgmax _ hEne, argmaxIdx_isFirstArgmax _ hDne, ?_⟩
  have hE : argmaxIdx (baseEntropyList logf images ks ch r c) < images.length := by
    rw [← hElen]; exact argmaxIdx_lt _ hEne
  have hD : argmaxIdx (baseDeviationList logf images ks ch r c) < images.length := by
    rw [← hDlen]; exact argmaxIdx_lt _ hDne
  simp only [get_fused_base_channel]
  rw [Finset.sum_add_distrib,
    sum_ite_pick images.length _ hE (fun layer => (images.getD layer dImg).pix r c ch),
    sum_ite_pick images.length _ hD (fun layer => (images.getD layer dImg).pix r c ch)]

/-- Witness for C2 on a concrete single-layer stack. -/
theorem fused_base_channel_eq_witness :
    isFirstArgmax
        (baseEntropyList (fun _ => 0) [(⟨1, 1, 1, fun _ _ _ => 5⟩ : Img)] 5 0 0 0)
        (argmaxIdx
          (baseEntropyList (fun _ => 0) [(⟨1, 1, 1, fun _ _ _ => 5⟩ : Img)] 5 0 0 0)) ∧
      isFirstArgmax
        (baseDeviationList (fun _ => 0) [(⟨1, 1, 1, fun _ _ _ => 5⟩ : Img)] 5 0 0 0)
        (argmaxIdx
          (baseDeviationList (fun _ => 0) [(⟨1, 1, 1, fun _ _ _ => 5⟩ : Img)] 5 0 0 0)) ∧
      get_fused_base_channel (fun _ => 0) [(⟨1, 1, 1, fun _ _ _ => 5⟩ : Img)] 5 0 0 0 =
        (([(⟨1, 1, 1, fun _ _ _ => 5⟩ : Img)].getD
            (argmaxIdx
              (baseEntropyList (fun _ => 0) [(⟨1, 1, 1, fun _ _ _ => 5⟩ : Img)] 5 0 0 0))
            dImg).pix 0 0 0 +
         ([(⟨1, 1, 1, fun _ _ _ => 5⟩ : Img)].getD
            (argmaxIdx
              (baseDeviationList (fun _ => 0) [(⟨1, 1, 1, fun _ _ _ => 5⟩ : Img)] 5 0 0 0))
            dImg).pix 0 0 0) / 2 :=
  fused_base_channel_eq (fun _ => 0) [(⟨1, 1, 1, fun _ _ _ => 5⟩ : Img)] 5 0 0 0
    (List.cons_ne_nil _ _)

/-- C3: detail-band fusion is pure selection — at every pixel of every
channel the fused value is the raw detail value of the layer whose region
energy is maximal there, first-occurrence (lowest-layer-index) tie-breaking,
with no blending. -/
theorem fused_laplacian_channel_eq (laps : List Img) (ch r c : Nat)
    (hne : laps ≠ []) :
    isFirstArgmax (lapEnergyList laps ch r c)
        (argmaxIdx (lapEnergyList laps ch r c)) ∧
      get_fused_laplacian_channel laps ch r c =
        (laps.getD (argmaxIdx (lapEnergyList laps ch r c)) dImg).pix r c ch := by
  have hne' : lapEnergyList laps ch r c ≠ [] := by
    simpa [lapEnergyList] using hne
  have hlen : (lapEnergyList laps ch r c).length = laps.length := by
    simp [lapEnergyList]
  refine ⟨argmaxIdx_isFirstArgmax _ hne', ?_⟩
  have hb : argmaxIdx (lapEnergyList laps ch r c) < laps.length := by
    rw [← hlen]; exact argmaxIdx_lt _ hne'
  simp only [get_fused_laplacian_channel]
  exact sum_ite_pick laps.length _ hb (fun layer => (laps.getD layer dImg).pix r c ch)

/-- Witness for C3 on a concrete single-layer stack. -/
theorem fused_laplacian_channel_eq_witness :
    isFirstArgmax (lapEnergyList [(⟨1, 1, 1, fun _ _ _ => 2⟩ : Img)] 0 0 0)
        (argmaxIdx (lapEnergyList [(⟨1, 1, 1, fun _ _ _ => 2⟩ : Img)] 0 0 0)) ∧
      get_fused_laplacian_channel [(⟨1, 1, 1, fun _ _ _ => 2⟩ : Img)] 0 0 0 =
        ([(⟨1, 1, 1, fun _ _ _ => 2⟩ : Img)].getD
          (argmaxIdx (lapEnergyList [(⟨1, 1, 1, fun _ _ _ => 2⟩ : Img)] 0 0 0))
          dImg).pix 0 0 0 :=
  fused_laplacian_channel_eq [(⟨1, 1, 1, fun _ _ _ => 2⟩ : Img)] 0 0 0
    (List.cons_ne_nil _ _)

/-- Models `cv2.filter2D` with `BORDER_REFLECT_101` on a multichannel image,
5x5 kernel anchored at its center. -/
def convolveImg (kernel : Nat → Nat → ℚ) (im : Img) : Img :=
  ⟨im.h, im.w, im.c, fun r c k =>
    Finset.sum (Finset.range 5) fun di =>
      Finset.sum (Finset.range 5) fun dj =>
        kernel di dj *
          im.pix (refl101 im.h ((r + di : ℕ) - (2 : ℤ)))
                 (refl101 im.w ((c + dj : ℕ) - (2 : ℤ))) k⟩

/-- Decimation by 2 in both dimensions: keep every second row/column,
output size the ceiling of half the input per dimension. -/
def decimate2 (im : Img) : Img :=
  ⟨(im.h + 1) / 2, (im.w + 1) / 2, im.c, fun r c k => im.pix (2 * r) (2 * c) k⟩

/-- Written from the spec's words: the Gaussian-pyramid downsample step as
"convolution with the generated Kernel (reflect boundary, mirrored without
repeating the edge sample) followed by decimation by 2 with ceil(dim/2)
output size". -/
def specDownsample (a : ℚ) (im : Img) : Img :=
  decimate2 (convolveImg (generating_kernel a) im)

/-- Concrete 5x5 single-channel unit impulse used to separate the kernels. -/
def deltaImg : Img := ⟨5, 5, 1, fun r c _ => if r = 2 ∧ c = 2 then 1 else 0⟩

/-- Counterexample to C5: at the 5x5 unit impulse, the code's downsample step
(`cv2.pyrDown`, fixed kernel `[1,4,6,4,1]/16`, center weight `(6/16)^2`)
differs from convolution with `generating_kernel(0.4)` (center weight
`(2/5)^2`) followed by decimation. -/
theorem downsample_ne_spec_a04 :
    (pyrDown deltaImg).pix 1 1 0 ≠ (specDownsample (2 / 5) deltaImg).pix 1 1 0 := by
  have h1 : (pyrDown deltaImg).pix 1 1 0 = 9 / 64 := by
    simp [pyrDown, deltaImg, Finset.sum_range_succ, pdK, refl101]
    norm_num
  have h2 : (specDownsample (2 / 5) deltaImg).pix 1 1 0 = 4 / 25 := by
    simp [specDownsample, decimate2, convolveImg, deltaImg, Finset.sum_range_succ,
      generating_kernel, genK1, refl101]
    norm_num
  rw [h1, h2]
  norm_num

theorem pdK_eq_genK1 : ∀ x, pdK x = genK1 (3 / 8) x := by
  intro x
  rcases x with _ | _ | _ | _ | _ | x <;> norm_num [pdK, genK1]

/-- C5 (amended): the code's Gaussian-pyramid downsample step equals
convolution with the generated kernel for `a = 0.375` — the fixed OpenCV
`pyrDown` kernel `[1,4,6,4,1]/16`, not the repository default `a = 0.4` —
using reflect-101 boundary handling and decimation by 2 with ceil(dim/2)
output sizes. -/
theorem pyrDown_eq_specDownsample :
    ∀ im : Img, pyrDown im = specDownsample (3 / 8) im := by
  intro im
  refine Img.ext rfl rfl rfl ?_
  funext r c k
  show (pyrDown im).pix r c k = (specDownsample (3 / 8) im).pix r c k
  simp only [pyrDown, specDownsample, decimate2, convolveImg]
  refine Finset.sum_congr rfl fun di _ => ?_
  refine Finset.sum_congr rfl fun dj _ => ?_
  rw [show generating_kernel (3 / 8) di dj = genK1 (3 / 8) di * genK1 (3 / 8) dj
      from rfl,
    ← pdK_eq_genK1, ← pdK_eq_genK1]

/-- Models the depth driven by `int(np.log2(smallest_side / min_size))` in
`get_pyramid_fusion`, under exact logarithm semantics: Python `int()`
truncates toward zero, which is the floor of log2 for ratio at least 1 and
minus the floor of log2 of the reciprocal for ratio below 1.  `Int.log` is
the floor of the real base-2 logarithm on positive rationals. -/
def codeDepth (s m : Nat) : ℤ :=
  if m ≤ s then Int.log 2 ((s : ℚ) / (m : ℚ))
  else -(Int.log 2 ((m : ℚ) / (s : ℚ)))

/-- Written from the spec's words: `depth = floor(log2(min(height, width) /
minBandSize))`. -/
def specDepthFloor (s m : Nat) : ℤ := Int.log 2 ((s : ℚ) / (m : ℚ))

theorem int_log2_eq {r : ℚ} (hr : 0 < r) (j : ℤ) (h1 : (2 : ℚ) ^ j ≤ r)
    (h2 : r < (2 : ℚ) ^ (j + 1)) : Int.log 2 r = j := by
  have hlo : j ≤ Int.log 2 r :=
    (Int.zpow_le_iff_le_log (by norm_num) hr).mp (by exact_mod_cast h1)
  have hhi : Int.log 2 r < j + 1 :=
    (Int.lt_zpow_iff_log_lt (by norm_num) hr).mp (by exact_mod_cast h2)
  omega

/-- Counterexample to C6: for a 9x9 first image with minBandSize 32 the code
computes `int(log2(9/32)) = -1` (truncation toward zero) while the spec's
`floor(log2(9/32))` is `-2`. -/
theorem depth_trunc_ne_floor :
    codeDepth 9 32 = -1 ∧ specDepthFloor 9 32 = -2 ∧
      codeDepth 9 32 ≠ specDepthFloor 9 32 := by
  have h1 : codeDepth 9 32 = -1 := by
    have : Int.log 2 ((32 : ℚ) / (9 : ℚ)) = 1 := by
      apply int_log2_eq (by norm_num) 1 <;> norm_num
    simp [codeDepth, this]
  have h2 : specDepthFloor 9 32 = -2 := by
    have : Int.log 2 ((9 : ℚ) / (32 : ℚ)) = -2 := by
      apply int_log2_eq (by norm_num) (-2) <;> norm_num
    simpa [specDepthFloor] using this
  exact ⟨h1, h2, by rw [h1, h2]; decide⟩

/-- C6 (amended): the orchestrator's depth is the truncation toward zero of
`log2(min(height, width) / minBandSize)`, which agrees with the spec's floor
whenever the shortest side is at least minBandSize; in particular a 512x512
input with minBandSize 32 gives depth 4 and a 40x40 input gives depth 0. -/
theorem depth_policy :
    (∀ s m : Nat, 1 ≤ m → m ≤ s → codeDepth s m = specDepthFloor s m) ∧
      codeDepth 512 32 = 4 ∧ codeDepth 40 32 = 0 := by
  refine ⟨fun s m _ hs => by simp [codeDepth, specDepthFloor, if_pos hs], ?_, ?_⟩
  · have : Int.log 2 ((512 : ℚ) / (32 : ℚ)) = 4 := by
      apply int_log2_eq (by norm_num) 4 <;> norm_num
    simp [codeDepth, this]
  · have : Int.log 2 ((40 : ℚ) / (32 : ℚ)) = 0 := by
      apply int_log2_eq (by norm_num) 0 <;> norm_num
    simp [codeDepth, this]

/-- Witness for C6 (amended) at a concrete in-range input. -/
theorem depth_policy_witness : codeDepth 512 32 = specDepthFloor 512 32 :=
  depth_policy.1 512 32 (by norm_num) (by norm_num)

/-- Fatal conditions of the fusion entry point: a ragged stack cannot form a
dense array (numpy `ValueError` at `np.asarray`), and an empty stack faults
at `images[0]` (`IndexError`) before any computation. -/
inductive FusionError where
  | shapeMismatch
  | emptyStack

/-- Models `fuse_pyramids(pyramids, kernel_size)`: the coarsest (last) level
is fused with base-band fusion, every finer level with Laplacian fusion;
output finest-first (the code appends coarsest-first and reverses). -/
def fuse_pyramids (logf : ℚ → ℚ) (pyramids : List (List Img)) (ks : Nat) :
    List Img :=
  match pyramids.getLast? with
  | none => []
  | some base =>
      pyramids.dropLast.map get_fused_laplacian ++ [get_fused_base logf base ks]

/-- Models `get_pyramid_fusion(images, min_size=32)`: depth from the first
image's shortest side (`int(np.log2(smallest_side / min_size))`), kernel
size 5, Laplacian decomposition, per-level fusion, collapse.  An empty stack
faults at `images[0]` before any computation, modelled as `emptyStack`; a
negative depth makes `range(levels)` empty, modelled by `Int.toNat`. -/
def get_pyramid_fusion (logf : ℚ → ℚ) (images : List Img) (min_size : Nat) :
    Except FusionError Img :=
  match images with
  | [] => Except.error FusionError.emptyStack
  | i0 :: _ =>
    let depth := codeDepth (min i0.h i0.w) min_size
    Except.ok
      (collapse (fuse_pyramids logf (laplacian_pyramid images depth.toNat) 5))

/-- Models `np.asarray(images)` in `stack_images` (`stacker.py`): a ragged
list whose images disagree in height, width or channel count cannot form a
dense ndarray and numpy raises `ValueError`, modelled as `shapeMismatch`;
otherwise the stack passes through unchanged. -/
def asarrayStack (images : List Img) : Except FusionError (List Img) :=
  match images with
  | [] => Except.ok []
  | i0 :: rest =>
    if rest.all fun im => decide (im.h = i0.h ∧ im.w = i0.w ∧ im.c = i0.c)
    then Except.ok (i0 :: rest)
    else Except.error FusionError.shapeMismatch

/-- Models `stack_images(images)` (`stacker.py`): convert the list of decoded
images to a dense array and run the pyramid fusion with the default
`min_size = 32`. -/
def stack_images (logf : ℚ → ℚ) (images : List Img) : Except FusionError Img :=
  (asarrayStack images).bind fun arr => get_pyramid_fusion logf arr 32

/-- C7: a stack whose images disagree in shape is rejected at array
conversion, and an empty stack is rejected at its first indexing — in both
cases fusion produces an error and no (partial) output image. -/
theorem fusion_errors_fatal (logf : ℚ → ℚ) :
    (∀ i0 rest,
        ¬ (∀ im ∈ rest, im.h = i0.h ∧ im.w = i0.w ∧ im.c = i0.c) →
        stack_images logf (i0 :: rest) = Except.error FusionError.shapeMismatch) ∧
      stack_images logf [] = Except.error FusionError.emptyStack := by
  constructor
  · intro i0 rest hmism
    have hall : (rest.all fun im =>
        decide (im.h = i0.h ∧ im.w = i0.w ∧ im.c = i0.c)) = false := by
      rw [← Bool.not_eq_true]
      intro hall
      exact hmism fun im hm => by
        have := List.all_eq_true.mp hall im hm
        exact of_decide_eq_true this
    simp only [stack_images, asarrayStack]
    rw [hall]
    rfl
  · rfl

/-- Witness for C7 on a concrete two-image stack with mismatched widths. -/
theorem fusion_errors_fatal_witness :
    stack_images (fun _ => 0)
        [(⟨2, 2, 1, fun _ _ _ => 0⟩ : Img), (⟨2, 3, 1, fun _ _ _ => 0⟩ : Img)] =
      Except.error FusionError.shapeMismatch :=
  (fusion_errors_fatal (fun _ => 0)).1 ⟨2, 2, 1, fun _ _ _ => 0⟩
    [(⟨2, 3, 1, fun _ _ _ => 0⟩ : Img)]
    (fun h => by
      have := h ⟨2, 3, 1, fun _ _ _ => 0⟩ (List.mem_cons_self _ _)
      simp at this)

/-- Shape predicate: every layer of a stack has the given dimensions. -/
def sameShape (stack : List Img) (h w c : Nat) : Prop :=
  ∀ im ∈ stack, im.h = h ∧ im.w = w ∧ im.c = c

/-- Ceiling halving, the per-dimension size map of `pyrDown`. -/
def halve (x : Nat) : Nat := (x + 1) / 2

theorem exists_of_mem_zipWith :
    ∀ {f : Img → Img → Img} {as bs : List Img} {x : Img},
      x ∈ List.zipWith f as bs → ∃ a, a ∈ as ∧ ∃ b, b ∈ bs ∧ x = f a b := by
  intro f as
  induction as with
  | nil => intro bs x hx; simp at hx
  | cons a as ih =>
    intro bs x hx
    cases bs with
    | nil => simp at hx
    | cons b bs =>
      rw [List.zipWith_cons_cons, List.mem_cons] at hx
      cases hx with
      | inl h => exact ⟨a, List.mem_cons_self _ _, b, List.mem_cons_self _ _, h⟩
      | inr h =>
        obtain ⟨a', ha', b', hb', rfl⟩ := ih h
        exact ⟨a', List.mem_cons_of_mem _ ha', b', List.mem_cons_of_mem _ hb', rfl⟩

theorem sameShape_gaussLevels {stack : List Img} {h w c : Nat}
    (hs : sameShape stack h w c) (k : Nat) :
    sameShape (gaussLevels stack k) (halve^[k] h) (halve^[k] w) c := by
  induction k with
  | zero => exact hs
  | succ k ih =>
    intro im hmem
    have hmem' : im ∈ (gaussLevels stack k).map pyrDown := hmem
    obtain ⟨j, hj, rfl⟩ := List.mem_map.mp hmem'
    obtain ⟨h1, h2, h3⟩ := ih j hj
    refine ⟨?_, ?_, ?_⟩
    · show (j.h + 1) / 2 = halve^[k + 1] h
      rw [Function.iterate_succ_apply', h1]
      rfl
    · show (j.w + 1) / 2 = halve^[k + 1] w
      rw [Function.iterate_succ_apply', h2]
      rfl
    · exact h3

theorem sameShape_lapLevel {stack : List Img} {h w c : Nat}
    (hs : sameShape stack h w c) (lv k : Nat) :
    sameShape (lapLevel stack lv k) (halve^[k] h) (halve^[k] w) c := by
  unfold lapLevel
  split
  · rename_i hk
    subst hk
    exact sameShape_gaussLevels hs k
  · intro x hx
    obtain ⟨g, hg, g1, hg1, rfl⟩ := exists_of_mem_zipWith hx
    obtain ⟨h1, h2, h3⟩ := sameShape_gaussLevels hs k g hg
    exact ⟨h1, h2, h3⟩

theorem lapLevel_length (stack : List Img) (lv k : Nat) :
    (lapLevel stack lv k).length = stack.length := by
  unfold lapLevel
  split
  · exact gaussLevels_length stack lv
  · simp [List.length_zipWith, gaussLevels_length]

theorem get_fused_laplacian_dims {L : List Img} {a b c0 : Nat} (hne : L ≠ [])
    (hs : sameShape L a b c0) :
    (get_fused_laplacian L).h = a ∧ (get_fused_laplacian L).w = b ∧
      (get_fused_laplacian L).c = c0 := by
  obtain ⟨l0, lt, rfl⟩ := List.exists_cons_of_ne_nil hne
  have h := hs l0 (List.mem_cons_self _ _)
  exact ⟨h.1, h.2.1, h.2.2⟩

theorem get_fused_base_dims {logf : ℚ → ℚ} {L : List Img} {a b c0 ks : Nat}
    (hne : L ≠ []) (hs : sameShape L a b c0) :
    (get_fused_base logf L ks).h = a ∧ (get_fused_base logf L ks).w = b ∧
      (get_fused_base logf L ks).c = c0 := by
  obtain ⟨l0, lt, rfl⟩ := List.exists_cons_of_ne_nil hne
  have h := hs l0 (List.mem_cons_self _ _)
  exact ⟨h.1, h.2.1, h.2.2⟩

theorem getD_append_concat (A : List Img) (B : Img) {k : Nat}
    (hk : k = A.length) : (A ++ [B]).getD k dImg = B := by
  subst hk
  rw [List.getD_eq_getElem?_getD, List.getElem?_concat_length]
  rfl

/-- Dimension analysis of `collapse`: if the `k`-th level of a pyramid has
the `k`-times-halved dimensions of `(h, w)` and channel count `c`, the
collapsed image has dimensions `(h, w, c)`. -/
theorem collapse_dims :
    ∀ (L : List Img) (h w c : Nat), L ≠ [] →
      (∀ k, k < L.length →
        (L.getD k dImg).h = halve^[k] h ∧ (L.getD k dImg).w = halve^[k] w ∧
          (L.getD k dImg).c = c) →
      (collapse L).h = h ∧ (collapse L).w = w ∧ (collapse L).c = c
  | [], _, _, _, hne, _ => absurd rfl hne
  | [x], h, w, c, _, hp => by
    rw [collapse_singleton]
    simpa using hp 0 (by simp)
  | x :: y :: t, h, w, c, _, hp => by
    have hrec := collapse_dims (y :: t) (halve h) (halve w) c
      (List.cons_ne_nil _ _)
      (fun k hk => by
        have := hp (k + 1) (by simpa using Nat.succ_lt_succ hk)
        simpa [Function.iterate_succ_apply] using this)
    obtain ⟨hch, hcw, hcc⟩ := hrec
    obtain ⟨hx1, hx2, hx3⟩ := hp 0 (by simp)
    simp only [Function.iterate_zero_apply, List.getD_cons_zero] at hx1 hx2 hx3
    rw [collapse_cons _ _ (List.cons_ne_nil _ _)]
    have hup_h : x.h ≤ (pyrUp (collapse (y :: t))).h := by
      show x.h ≤ 2 * (collapse (y :: t)).h
      rw [hch]
      show x.h ≤ 2 * ((h + 1) / 2)
      omega
    have hup_w : x.w ≤ (pyrUp (collapse (y :: t))).w := by
      show x.w ≤ 2 * (collapse (y :: t)).w
      rw [hcw]
      show x.w ≤ 2 * ((w + 1) / 2)
      omega
    refine ⟨?_, ?_, ?_⟩
    · show (cropTo (pyrUp (collapse (y :: t))) x.h x.w).h = h
      rw [cropTo_h _ hup_h]
      exact hx1
    · show (cropTo (pyrUp (collapse (y :: t))) x.h x.w).w = w
      rw [cropTo_w _ hup_w]
      exact hx2
    · show (cropTo (pyrUp (collapse (y :: t))) x.h x.w).c = c
      rw [cropTo_c]
      show (collapse (y :: t)).c = c
      exact hcc

/-- C8: for every non-empty stack of equal-shaped images the orchestrator
succeeds and its fused output has exactly the input layers' height, width and
channel count. -/
theorem fused_output_shape (logf : ℚ → ℚ) (i0 : Img) (rest : List Img)
    (m : Nat) (_hm : 1 ≤ m)
    (hshape : sameShape (i0 :: rest) i0.h i0.w i0.c) :
    ∃ out, get_pyramid_fusion logf (i0 :: rest) m = Except.ok out ∧
      out.h = i0.h ∧ out.w = i0.w ∧ out.c = i0.c := by
  refine ⟨collapse (fuse_pyramids logf
      (laplacian_pyramid (i0 :: rest)
        (codeDepth (min i0.h i0.w) m).toNat) 5), rfl, ?_⟩
  set lv := (codeDepth (min i0.h i0.w) m).toNat with hlv
  have hlp : laplacian_pyramid (i0 :: rest) lv =
      ((List.range lv).map (lapLevel (i0 :: rest) lv)) ++
        [lapLevel (i0 :: rest) lv lv] := by
    rw [laplacian_pyramid, List.range_succ, List.map_append, List.map_singleton]
  have hfuse : fuse_pyramids logf (laplacian_pyramid (i0 :: rest) lv) 5 =
      ((List.range lv).map (lapLevel (i0 :: rest) lv)).map get_fused_laplacian ++
        [get_fused_base logf (lapLevel (i0 :: rest) lv lv) 5] := by
    rw [fuse_pyramids, hlp, List.getLast?_concat, List.dropLast_concat]
  rw [hfuse]
  have hlap_ne : ∀ k, lapLevel (i0 :: rest) lv k ≠ [] := fun k => by
    rw [← List.length_pos, lapLevel_length]
    simp
  apply collapse_dims _ i0.h i0.w i0.c
  · simp
  · intro k hk
    have hlen : (((List.range lv).map (lapLevel (i0 :: rest) lv)).map
        get_fused_laplacian).length = lv := by simp
    by_cases hklv : k < lv
    · have hget : ((((List.range lv).map (lapLevel (i0 :: rest) lv)).map
          get_fused_laplacian) ++
            [get_fused_base logf (lapLevel (i0 :: rest) lv lv) 5]).getD k dImg =
          get_fused_laplacian (lapLevel (i0 :: rest) lv k) := by
        rw [List.getD_eq_getElem?_getD, List.getElem?_append, if_pos (by simpa [hlen] using hklv),
          List.getElem?_map, List.getElem?_map, List.getElem?_range hklv]
        rfl
      rw [hget]
      exact get_fused_laplacian_dims (hlap_ne k)
        (sameShape_lapLevel hshape lv k)
    · have hkeq : k = lv := by
        have : k < lv + 1 := by
          simpa [hlen] using hk
        omega
      rw [getD_append_concat _ _ (hkeq.trans hlen.symm), hkeq]
      exact get_fused_base_dims (hlap_ne lv) (sameShape_lapLevel hshape lv lv)

/-- Witness for C8 on a concrete single-layer 2x2 stack. -/
theorem fused_output_shape_witness :
    ∃ out, get_pyramid_fusion (fun _ => 0) [(⟨2, 2, 1, fun _ _ _ => 1⟩ : Img)] 32 =
        Except.ok out ∧ out.h = 2 ∧ out.w = 2 ∧ out.c = 1 :=
  fused_output_shape (fun _ => 0) ⟨2, 2, 1, fun _ _ _ => 1⟩ [] 32 (by decide)
    (fun im hm => by
      have h : im = (⟨2, 2, 1, fun _ _ _ => 1⟩ : Img) := by simpa using hm
      subst h
      exact ⟨rfl, rfl, rfl⟩)

end FsPyramid
